import Mathlib

/-!
Verification of core numeric components of a neural TTS system
(pitch adaptor, masking utility, attention prior, STFT losses,
discriminator ensemble shapes, dataset retrieval).

Tensor values are modelled as rationals (or reals where logarithms are
needed); batched tensors are lists of lists.  Learned sub-networks
(the variance predictor, the embedding table) are modelled as abstract
functions, since their weights are arbitrary at the level of the
properties proved here.
-/

namespace TTS

/-- `torch.bucketize(v, bins)` with the default `right=False`:
the returned index is the number of boundaries strictly below `v`,
i.e. the smallest `i` with `v ≤ bins[i]` when `bins` is sorted. -/
def bucketize (bins : List ℚ) (v : ℚ) : ℕ :=
  bins.countP (fun b => decide (b < v))

/-- `torch.linspace lo hi steps`: `steps` evenly spaced points from
`lo` to `hi` inclusive. -/
def linspace (lo hi : ℚ) (steps : ℕ) : List ℚ :=
  if steps = 0 then []
  else if steps = 1 then [lo]
  else (List.range steps).map
    (fun i : ℕ => lo + (i : ℚ) * (hi - lo) / ((steps : ℚ) - 1))

/-- The pitch-bin boundary buffer built in `PitchAdaptor.__init__`:
`torch.linspace(pitch_min, pitch_max, n_bins - 1)`. -/
def pitch_bins (pitch_min pitch_max : ℚ) (n_bins : ℕ) : List ℚ :=
  linspace pitch_min pitch_max (n_bins - 1)

/-- A variance-predictor network, abstracted as a function from the
hidden states and mask to a per-timestep scalar sequence. -/
def Predictor : Type :=
  List (List ℚ) → List Bool → List ℚ

/-- An embedding table, abstracted as a function from a bucket index to
an embedding vector. -/
def EmbeddingTable : Type :=
  ℕ → List ℚ

/-- Elementwise addition of two matrices (`x + embedding` in the code). -/
def addMat (a b : List (List ℚ)) : List (List ℚ) :=
  List.zipWith (fun ra rb => List.zipWith (fun p q => p + q) ra rb) a b

/-- `PitchAdaptor.get_pitch_embedding_train`: run the predictor, then
bucketize both the ground-truth target and the prediction against the
bins and look both up in the embedding table. -/
def get_pitch_embedding_train (predictor : Predictor) (bins : List ℚ)
    (table : EmbeddingTable) (x : List (List ℚ)) (target : List ℚ)
    (mask : List Bool) : List ℚ × List (List ℚ) × List (List ℚ) :=
  let prediction := predictor x mask
  let embedding_true := target.map (fun t => table (bucketize bins t))
  let embedding_pred := prediction.map (fun t => table (bucketize bins t))
  (prediction, embedding_true, embedding_pred)

/-- `PitchAdaptor.get_pitch_embedding` (inference): run the predictor,
scale by `control`, bucketize and embed. -/
def get_pitch_embedding (predictor : Predictor) (bins : List ℚ)
    (table : EmbeddingTable) (x : List (List ℚ)) (mask : List Bool)
    (control : ℚ) : List (List ℚ) :=
  let prediction := predictor x mask
  let scaled := prediction.map (fun p => p * control)
  scaled.map (fun t => table (bucketize bins t))

/-- `PitchAdaptor.add_pitch_train`: compute prediction and both
embeddings, then add the ground-truth embedding to `x` when
`use_ground_truth` and the predicted one otherwise. -/
def add_pitch_train (predictor : Predictor) (bins : List ℚ)
    (table : EmbeddingTable) (x : List (List ℚ)) (pitch_target : List ℚ)
    (src_mask : List Bool) (use_ground_truth : Bool) :
    List (List ℚ) × List ℚ × List (List ℚ) × List (List ℚ) :=
  let r := get_pitch_embedding_train predictor bins table x pitch_target src_mask
  let pitch_prediction := r.1
  let pitch_embedding_true := r.2.1
  let pitch_embedding_pred := r.2.2
  if use_ground_truth then
    (addMat x pitch_embedding_true, pitch_prediction,
      pitch_embedding_true, pitch_embedding_pred)
  else
    (addMat x pitch_embedding_pred, pitch_prediction,
      pitch_embedding_true, pitch_embedding_pred)

/-! ### Helper lemmas about `bucketize` and `linspace` -/

lemma bucketize_cons_of_lt {a v : ℚ} (t : List ℚ) (h : a < v) :
    bucketize (a :: t) v = bucketize t v + 1 := by
  simp [bucketize, List.countP_cons, h]

lemma bucketize_cons_of_ge {a v : ℚ} (t : List ℚ) (h : ¬a < v) :
    bucketize (a :: t) v = bucketize t v := by
  simp [bucketize, List.countP_cons, h]

lemma bucketize_eq_zero_of_sorted {a v : ℚ} {t : List ℚ}
    (hs : (a :: t).Sorted (· < ·)) (h : ¬a < v) :
    bucketize (a :: t) v = 0 := by
  rw [bucketize_cons_of_ge t h]
  rw [bucketize, List.countP_eq_zero]
  intro x hx
  have hax : a < x := List.rel_of_sorted_cons hs x hx
  simp only [decide_eq_true_eq]
  intro hxv
  exact h (lt_trans hax hxv)

lemma bucketize_le_length (bins : List ℚ) (v : ℚ) :
    bucketize bins v ≤ bins.length := by
  unfold bucketize
  exact List.countP_le_length _

/-- For sorted bins, the boundary at the assigned index (when it exists)
is at least `v`: the assigned bucket's right edge is closed. -/
lemma le_getElem_bucketize (bins : List ℚ) (hs : bins.Sorted (· < ·))
    (v b : ℚ) (hb : bins[bucketize bins v]? = some b) : v ≤ b := by
  induction bins with
  | nil => simp at hb
  | cons a t ih =>
    by_cases hav : a < v
    · rw [bucketize_cons_of_lt t hav] at hb
      rw [List.getElem?_cons_succ] at hb
      exact ih hs.of_cons hb
    · rw [bucketize_eq_zero_of_sorted hs hav] at hb
      rw [List.getElem?_cons_zero] at hb
      cases hb
      exact le_of_not_lt hav

/-- For sorted bins, the boundary just below the assigned index is
strictly below `v`: the assigned bucket's left edge is open. -/
lemma getElem_lt_of_bucketize (bins : List ℚ) (hs : bins.Sorted (· < ·))
    (v b : ℚ) (k : ℕ) (hk : bucketize bins v = k + 1)
    (hb : bins[k]? = some b) : b < v := by
  induction bins generalizing k with
  | nil => simp [bucketize] at hk
  | cons a t ih =>
    by_cases hav : a < v
    · rw [bucketize_cons_of_lt t hav] at hk
      cases k with
      | zero =>
        rw [List.getElem?_cons_zero] at hb
        cases hb
        exact hav
      | succ k =>
        rw [List.getElem?_cons_succ] at hb
        exact ih hs.of_cons k (Nat.succ_injective hk) hb
    · rw [bucketize_eq_zero_of_sorted hs hav] at hk
      exact absurd hk (Nat.zero_ne_add_one k)

/-- For sorted bins, a value exactly equal to boundary `i` is assigned
bucket `i` (the lower of the two adjacent buckets). -/
lemma bucketize_getElem_self (bins : List ℚ) (hs : bins.Sorted (· < ·)) :
    ∀ (i : ℕ) (hi : i < bins.length), bucketize bins bins[i] = i := by
  induction bins with
  | nil => intro i hi; simp at hi
  | cons a t ih =>
    intro i hi
    cases i with
    | zero =>
      rw [List.getElem_cons_zero]
      exact bucketize_eq_zero_of_sorted hs (lt_irrefl a)
    | succ i =>
      rw [List.getElem_cons_succ]
      have hit : i < t.length := by
        simpa [List.length_cons, Nat.succ_lt_succ_iff] using hi
      have hmem : t[i] ∈ t := List.getElem_mem hit
      have hat : a < t[i] := List.rel_of_sorted_cons hs _ hmem
      rw [bucketize_cons_of_lt t hat, ih hs.of_cons i hit]

lemma linspace_length (lo hi : ℚ) (steps : ℕ) :
    (linspace lo hi steps).length = steps := by
  unfold linspace
  split
  · simp [*]
  · split
    · simp [*]
    · rw [List.length_map, List.length_range]

lemma mem_linspace_bounds (lo hi : ℚ) (steps : ℕ) (hlh : lo ≤ hi) :
    ∀ b ∈ linspace lo hi steps, lo ≤ b ∧ b ≤ hi := by
  intro b hb
  unfold linspace at hb
  split at hb
  · simp at hb
  · split at hb
    · rw [List.mem_singleton] at hb
      rw [hb]
      exact ⟨le_refl _, hlh⟩
    · rw [List.mem_map] at hb
      obtain ⟨j, hj, rfl⟩ := hb
      rw [List.mem_range] at hj
      have hs2 : 2 ≤ steps := by omega
      have hden : (0 : ℚ) < (steps : ℚ) - 1 := by
        have : (2 : ℚ) ≤ (steps : ℚ) := by exact_mod_cast hs2
        linarith
      have hnum : (0 : ℚ) ≤ (j : ℚ) * (hi - lo) := by
        apply mul_nonneg (Nat.cast_nonneg j)
        linarith
      constructor
      · have : (0 : ℚ) ≤ (j : ℚ) * (hi - lo) / ((steps : ℚ) - 1) :=
          div_nonneg hnum (le_of_lt hden)
        linarith
      · have hjle : (j : ℚ) ≤ (steps : ℚ) - 1 := by
          have : (j : ℚ) + 1 ≤ (steps : ℚ) := by exact_mod_cast hj
          linarith
        have hmul : (j : ℚ) * (hi - lo) ≤ ((steps : ℚ) - 1) * (hi - lo) := by
          apply mul_le_mul_of_nonneg_right hjle
          linarith
        have : (j : ℚ) * (hi - lo) / ((steps : ℚ) - 1) ≤ hi - lo := by
          rw [div_le_iff₀ hden]
          calc (j : ℚ) * (hi - lo) ≤ ((steps : ℚ) - 1) * (hi - lo) := hmul
            _ = (hi - lo) * ((steps : ℚ) - 1) := by ring
        linarith

/-! ### Claim theorems about the pitch adaptor -/

/-- C1: `add_pitch_train` with `use_ground_truth = true` returns
`x + embedding_from_target` and is independent of the prediction path
(two runs with different predictors agree); with
`use_ground_truth = false` it returns `x + embedding_from_prediction`
and is independent of the target; in both modes the prediction and both
embeddings are returned unchanged. -/
theorem add_pitch_train_teacher_forcing (p₁ p₂ : Predictor)
    (bins : List ℚ) (table : EmbeddingTable) (x : List (List ℚ))
    (target : List ℚ) (mask : List Bool) :
    (add_pitch_train p₁ bins table x target mask true).1
      = addMat x (target.map (fun t => table (bucketize bins t)))
    ∧ (add_pitch_train p₁ bins table x target mask true).1
      = (add_pitch_train p₂ bins table x target mask true).1
    ∧ (add_pitch_train p₁ bins table x target mask false).1
      = addMat x ((p₁ x mask).map (fun t => table (bucketize bins t)))
    ∧ (∀ target₂ : List ℚ,
        (add_pitch_train p₁ bins table x target mask false).1
          = (add_pitch_train p₁ bins table x target₂ mask false).1)
    ∧ (∀ ugt : Bool,
        (add_pitch_train p₁ bins table x target mask ugt).2
          = (p₁ x mask,
             target.map (fun t => table (bucketize bins t)),
             (p₁ x mask).map (fun t => table (bucketize bins t)))) := by
  refine ⟨rfl, rfl, rfl, fun target₂ => rfl, fun ugt => ?_⟩
  cases ugt <;> rfl

/-- C2 counterexample: with boundaries `[0, 1, 2]`, the value `1` sits
exactly on boundary index 1.  The right-open convention claimed by the
spec (`boundary[i-1] <= v < boundary[i]`) would assign it the higher
bucket 2, but `torch.bucketize` with its default `right=False` assigns
the lower bucket 1; the train-path lookup therefore picks embedding
row 1, not row 2. -/
theorem bucketize_boundary_counterexample :
    bucketize [(0 : ℚ), 1, 2] 1 = 1
    ∧ bucketize [(0 : ℚ), 1, 2] 1 ≠ 2
    ∧ (get_pitch_embedding_train (fun _ _ => [1]) [(0 : ℚ), 1, 2]
        (fun k => [(k : ℚ)]) [[0]] [1] [false]).2.1 = [[1]] := by
  refine ⟨by decide, by decide, ?_⟩
  simp [get_pitch_embedding_train]
  decide

/-- C2 amended: pitch bucketization uses left-open, right-closed
intervals — the bucket `i` assigned to `v` satisfies
`boundary[i-1] < v <= boundary[i]` (clamped at both ends), so a value
exactly equal to a boundary falls into the LOWER bucket; and the
target-path and prediction-path lookups of `get_pitch_embedding_train`
and the inference lookup of `get_pitch_embedding` all bucketize with
this same function. -/
theorem bucketize_right_closed (bins : List ℚ)
    (hs : bins.Sorted (· < ·)) (v : ℚ) :
    (∀ b : ℚ, bins[bucketize bins v]? = some b → v ≤ b)
    ∧ (∀ (k : ℕ) (b : ℚ), bucketize bins v = k + 1 →
        bins[k]? = some b → b < v)
    ∧ (∀ (i : ℕ) (hi : i < bins.length), bucketize bins bins[i] = i)
    ∧ (∀ (p : Predictor) (table : EmbeddingTable) (x : List (List ℚ))
        (target : List ℚ) (mask : List Bool),
        (get_pitch_embedding_train p bins table x target mask).2.1
          = target.map (fun t => table (bucketize bins t))
        ∧ (get_pitch_embedding_train p bins table x target mask).2.2
          = (p x mask).map (fun t => table (bucketize bins t)))
    ∧ (∀ (p : Predictor) (table : EmbeddingTable) (x : List (List ℚ))
        (mask : List Bool) (control : ℚ),
        get_pitch_embedding p bins table x mask control
          = ((p x mask).map (fun q => q * control)).map
              (fun t => table (bucketize bins t))) :=
  ⟨fun b hb => le_getElem_bucketize bins hs v b hb,
   fun k b hk hb => getElem_lt_of_bucketize bins hs v b k hk hb,
   fun i hi => bucketize_getElem_self bins hs i hi,
   fun _ _ _ _ _ => ⟨rfl, rfl⟩,
   fun _ _ _ _ _ => rfl⟩

/-- Witness for C2's amended theorem at concrete sorted bins
`[0, 1, 3]` and `v = 2`: the assigned bucket is 2, whose right edge
`3` satisfies `2 <= 3` and whose left edge `1` satisfies `1 < 2`, and
the boundary value `1` itself lands in the lower bucket 1. -/
theorem bucketize_right_closed_witness :
    (2 : ℚ) ≤ 3 ∧ (1 : ℚ) < 2 ∧ bucketize [(0 : ℚ), 1, 3] 1 = 1 := by
  have h := bucketize_right_closed [(0 : ℚ), 1, 3]
    (by norm_num [List.sorted_cons]) 2
  exact ⟨h.1 3 (by decide), h.2.1 1 1 (by decide) (by decide),
    h.2.2.1 1 (by decide)⟩

/-- C6: pitch bucketization against the adaptor's `pitch_bins`
boundaries is monotone: `v1 < v2` implies
`bucket(v1) <= bucket(v2)`. -/
theorem bucketize_monotone (pitch_min pitch_max : ℚ) (n_bins : ℕ)
    (v1 v2 : ℚ) (h : v1 < v2) :
    bucketize (pitch_bins pitch_min pitch_max n_bins) v1 ≤
      bucketize (pitch_bins pitch_min pitch_max n_bins) v2 := by
  unfold bucketize
  apply List.countP_mono_left
  intro b _ hb
  simp only [decide_eq_true_eq] at hb ⊢
  linarith

/-- Witness for C6 at `pitch_bins 0 10 5`, `v1 = 0`, `v2 = 1`. -/
theorem bucketize_monotone_witness :
    bucketize (pitch_bins 0 10 5) 0 ≤ bucketize (pitch_bins 0 10 5) 1 :=
  bucketize_monotone 0 10 5 0 1 (by norm_num)

/-- C8: for every pitch value `v` (also below `pitch_min` or above
`pitch_max`), the bucket computed against the adaptor's
`n_bins - 1` linspace boundaries lies in `[0, n_bins - 1]`: values
below `pitch_min` land in bucket 0, values above `pitch_max` in bucket
`n_bins - 1`, and looking the bucket up in an `n_bins`-row embedding
table never goes out of bounds. -/
theorem pitch_bucket_in_range (pitch_min pitch_max : ℚ) (n_bins : ℕ)
    (hmm : pitch_min ≤ pitch_max) (hn : 1 ≤ n_bins) (v : ℚ) :
    bucketize (pitch_bins pitch_min pitch_max n_bins) v ≤ n_bins - 1
    ∧ (v < pitch_min →
        bucketize (pitch_bins pitch_min pitch_max n_bins) v = 0)
    ∧ (pitch_max < v →
        bucketize (pitch_bins pitch_min pitch_max n_bins) v = n_bins - 1)
    ∧ (∀ table : List (List ℚ), table.length = n_bins →
        (table[bucketize (pitch_bins pitch_min pitch_max n_bins) v]?).isSome) := by
  have hlen : (pitch_bins pitch_min pitch_max n_bins).length = n_bins - 1 :=
    linspace_length pitch_min pitch_max (n_bins - 1)
  have hle : bucketize (pitch_bins pitch_min pitch_max n_bins) v ≤ n_bins - 1 := by
    rw [← hlen]
    exact bucketize_le_length _ v
  refine ⟨hle, ?_, ?_, ?_⟩
  · intro hv
    rw [bucketize, List.countP_eq_zero]
    intro b hb
    have := mem_linspace_bounds pitch_min pitch_max (n_bins - 1) hmm b hb
    simp only [decide_eq_true_eq]
    intro hbv
    linarith [this.1]
  · intro hv
    rw [bucketize, ← hlen]
    rw [List.countP_eq_length]
    intro b hb
    have := mem_linspace_bounds pitch_min pitch_max (n_bins - 1) hmm b hb
    simp only [decide_eq_true_eq]
    linarith [this.2]
  · intro table htl
    have hlt : bucketize (pitch_bins pitch_min pitch_max n_bins) v <
        table.length := by omega
    simp [List.getElem?_eq_getElem hlt]

/-- Witness for C8 at `pitch_bins 0 10 4` and `v = 99` (above
`pitch_max`): bucket is `4 - 1 = 3`, in bounds. -/
theorem pitch_bucket_in_range_witness :
    bucketize (pitch_bins 0 10 4) 99 = 4 - 1 :=
  (pitch_bucket_in_range 0 10 4 (by norm_num) (by norm_num) 99).2.2.1
    (by norm_num)

/-! ### Masking utility (spec §4.1) -/

/-- Error taxonomy entry for malformed masking inputs (spec §7). -/
inductive MaskError where
  | invalidInput
  deriving DecidableEq, Repr

/-- The largest length in the batch (`max(lengths)`). -/
def maxLength (lengths : List ℤ) : ℤ :=
  lengths.foldl max 0

/-- Modelled from the spec: the masking utility
(`get_mask_from_lengths` in `helpers/tools.py`, whose source is not in
the repository snapshot; only its caller in `helpers/initializer.py`
is).  Given an ordered list of positive integer lengths it produces a
boolean mask of shape `[batch, max(lengths)]` with entry `(i, t)` true
iff `t >= lengths[i]`; it fails with `InvalidInput` if the list is
empty or any length is zero or negative.  As a pure function it is
deterministic in the lengths and reports the error immediately, with
no retry. -/
def get_mask_from_lengths (lengths : List ℤ) :
    Except MaskError (List (List Bool)) :=
  if lengths.isEmpty then Except.error MaskError.invalidInput
  else if lengths.any (fun l => decide (l ≤ 0)) then
    Except.error MaskError.invalidInput
  else
    Except.ok (lengths.map (fun l =>
      (List.range (maxLength lengths).toNat).map
        (fun t : ℕ => decide (l ≤ (t : ℤ)))))

lemma init_le_foldl_max (l : List ℤ) (a : ℤ) : a ≤ l.foldl max a := by
  induction l generalizing a with
  | nil => simp
  | cons h t ih =>
    rw [List.foldl_cons]
    exact le_trans (le_max_left a h) (ih (max a h))

lemma mem_le_foldl_max (l : List ℤ) (a : ℤ) :
    ∀ x ∈ l, x ≤ l.foldl max a := by
  induction l generalizing a with
  | nil => simp
  | cons h t ih =>
    intro x hx
    rw [List.foldl_cons]
    rcases List.mem_cons.mp hx with rfl | hxt
    · exact le_trans (le_max_right a x) (init_le_foldl_max t (max a x))
    · exact ih (max a h) x hxt

lemma countP_range_ge (n k : ℕ) :
    (List.range n).countP (fun t => decide (k ≤ t)) = n - k := by
  induction n with
  | zero => simp
  | succ n ih =>
    rw [List.range_succ, List.countP_append, ih, List.countP_singleton]
    by_cases h : k ≤ n
    · simp [h]
      omega
    · simp [h]
      omega

/-- Shared success-path lemma for the masking utility: on a non-empty
list of positive lengths it returns a mask of the right shape, with
pointwise entries `t >= length[i]` and per-row true-count
`max - length[i]`. -/
lemma get_mask_from_lengths_ok (lengths : List ℤ)
    (hne : lengths ≠ []) (hpos : ∀ l ∈ lengths, 0 < l) :
    get_mask_from_lengths lengths
      = Except.ok (lengths.map (fun l =>
          (List.range (maxLength lengths).toNat).map
            (fun t : ℕ => decide (l ≤ (t : ℤ)))))
    ∧ List.Forall₂ (fun (len : ℤ) (row : List Bool) =>
        row.length = (maxLength lengths).toNat
        ∧ (∀ t : ℕ, t < (maxLength lengths).toNat →
            row[t]? = some (decide (len ≤ (t : ℤ))))
        ∧ row.count true = (maxLength lengths).toNat - len.toNat
        ∧ len ≤ maxLength lengths)
      lengths
      (lengths.map (fun l =>
        (List.range (maxLength lengths).toNat).map
          (fun t : ℕ => decide (l ≤ (t : ℤ))))) := by
  constructor
  · unfold get_mask_from_lengths
    rw [if_neg, if_neg]
    · intro hany
      rw [List.any_eq_true] at hany
      obtain ⟨l, hl, hle⟩ := hany
      rw [decide_eq_true_eq] at hle
      exact absurd (hpos l hl) (not_lt.mpr hle)
    · intro hemp
      exact hne (List.isEmpty_iff.mp hemp)
  · rw [List.forall₂_map_right_iff, List.forall₂_same]
    intro len hmem
    have hlen0 : 0 < len := hpos len hmem
    have hlemax : len ≤ maxLength lengths := mem_le_foldl_max lengths 0 len hmem
    refine ⟨by rw [List.length_map, List.length_range], ?_, ?_, hlemax⟩
    · intro t ht
      rw [List.getElem?_map, List.getElem?_range ht]
      rfl
    · rw [List.count, List.countP_map]
      rw [List.countP_congr
        (q := fun t => decide (len.toNat ≤ t)) (fun t _ => ?_)]
      · exact countP_range_ge (maxLength lengths).toNat len.toNat
      · simp only [Function.comp_apply, beq_iff_eq, decide_eq_true_eq]
        exact (Int.toNat_le).symm

/-- C5: for every non-empty list of positive lengths the masking
utility succeeds with a mask of shape `[batch, max(lengths)]` whose
entry `(i, t)` is true iff `t >= lengths[i]`, so row `i` has exactly
`max(lengths) - lengths[i]` true entries.  (The mask is a pure
function of the lengths, hence deterministic.) -/
theorem get_mask_from_lengths_spec (lengths : List ℤ)
    (hne : lengths ≠ []) (hpos : ∀ l ∈ lengths, 0 < l) :
    ∃ mask : List (List Bool),
      get_mask_from_lengths lengths = Except.ok mask
      ∧ mask.length = lengths.length
      ∧ List.Forall₂ (fun (len : ℤ) (row : List Bool) =>
          row.length = (maxLength lengths).toNat
          ∧ (∀ t : ℕ, t < (maxLength lengths).toNat →
              row[t]? = some (decide (len ≤ (t : ℤ))))
          ∧ row.count true = (maxLength lengths).toNat - len.toNat
          ∧ len ≤ maxLength lengths)
        lengths mask := by
  obtain ⟨hok, hfa⟩ := get_mask_from_lengths_ok lengths hne hpos
  exact ⟨_, hok, by rw [List.length_map], hfa⟩

/-- Witness for C5 at `lengths = [1, 3]`. -/
theorem get_mask_from_lengths_spec_witness :
    ∃ mask : List (List Bool),
      get_mask_from_lengths [(1 : ℤ), 3] = Except.ok mask
      ∧ mask.length = [(1 : ℤ), 3].length
      ∧ List.Forall₂ (fun (len : ℤ) (row : List Bool) =>
          row.length = (maxLength [(1 : ℤ), 3]).toNat
          ∧ (∀ t : ℕ, t < (maxLength [(1 : ℤ), 3]).toNat →
              row[t]? = some (decide (len ≤ (t : ℤ))))
          ∧ row.count true = (maxLength [(1 : ℤ), 3]).toNat - len.toNat
          ∧ len ≤ maxLength [(1 : ℤ), 3])
        [(1 : ℤ), 3] mask :=
  get_mask_from_lengths_spec [(1 : ℤ), 3] (by decide)
    (by intro l hl; fin_cases hl <;> decide)

/-- C9: the masking utility fails with `InvalidInput` on an empty
length list and on any list containing a zero or negative length, and
succeeds on every non-empty list of positive lengths.  (It is a pure
function, so the error is reported immediately with no retry.) -/
theorem get_mask_from_lengths_invalid :
    get_mask_from_lengths [] = Except.error MaskError.invalidInput
    ∧ (∀ (lengths : List ℤ) (l : ℤ), l ∈ lengths → l ≤ 0 →
        get_mask_from_lengths lengths = Except.error MaskError.invalidInput)
    ∧ (∀ lengths : List ℤ, lengths ≠ [] → (∀ l ∈ lengths, 0 < l) →
        ∃ mask, get_mask_from_lengths lengths = Except.ok mask) := by
  refine ⟨rfl, ?_, ?_⟩
  · intro lengths l hl hle
    unfold get_mask_from_lengths
    by_cases hemp : lengths.isEmpty
    · rw [if_pos hemp]
    · rw [if_neg hemp, if_pos]
      rw [List.any_eq_true]
      exact ⟨l, hl, decide_eq_true hle⟩
  · intro lengths hne hpos
    exact ⟨_, (get_mask_from_lengths_ok lengths hne hpos).1⟩

/-- Witness for C9: a zero length in `[0, 2]` triggers `InvalidInput`,
and the all-positive list `[2]` succeeds. -/
theorem get_mask_from_lengths_invalid_witness :
    get_mask_from_lengths [(0 : ℤ), 2] = Except.error MaskError.invalidInput
    ∧ ∃ mask, get_mask_from_lengths [(2 : ℤ)] = Except.ok mask :=
  ⟨get_mask_from_lengths_invalid.2.1 [(0 : ℤ), 2] 0 (by decide) (by decide),
   get_mask_from_lengths_invalid.2.2 [(2 : ℤ)] (by decide)
     (by intro l hl; fin_cases hl; decide)⟩

/-! ### Dataset retrieval (`LibriTTSDatasetAcoustic.__getitem__`) -/

/-- `LibriTTSDatasetAcoustic.__getitem__` on the default (cache-free)
path: preprocessing is abstracted as a function from an index to an
optional record, and the stream of random redraw indices
(`np.random.randint(0, len(self))`) is abstracted as an oracle list.
If preprocessing of the requested index fails, the method draws the
next random index and recurses; `none` here models the call not
returning normally (the recursion running out of draws), never a
returned `None` record. -/
def getItemAcoustic {α : Type} (preprocess : ℕ → Option α) :
    List ℕ → ℕ → Option α
  | [], idx => preprocess idx
  | r :: rs, idx =>
    match preprocess idx with
    | some d => some d
    | none => getItemAcoustic preprocess rs r

/-- C10: `__getitem__` never returns a `None` record — every returned
record is the preprocessed sample of some (possibly different) index;
if preprocessing of the requested index succeeds, that sample is
returned; if it fails, the method recurses on the next random index;
and the result depends on the random draws, so repeated calls with the
same index are not deterministic. -/
theorem getItemAcoustic_spec :
    (∀ (α : Type) (preprocess : ℕ → Option α) (rand : List ℕ) (idx : ℕ)
       (a : α), getItemAcoustic preprocess rand idx = some a →
         ∃ j, preprocess j = some a)
    ∧ (∀ (α : Type) (preprocess : ℕ → Option α) (rand : List ℕ)
         (idx : ℕ) (d : α), preprocess idx = some d →
           getItemAcoustic preprocess rand idx = some d)
    ∧ (∀ (α : Type) (preprocess : ℕ → Option α) (r : ℕ) (rs : List ℕ)
         (idx : ℕ), preprocess idx = none →
           getItemAcoustic preprocess (r :: rs) idx
             = getItemAcoustic preprocess rs r)
    ∧ (∃ (preprocess : ℕ → Option ℕ) (rand₁ rand₂ : List ℕ) (idx : ℕ),
         getItemAcoustic preprocess rand₁ idx
           ≠ getItemAcoustic preprocess rand₂ idx) := by
  refine ⟨?_, ?_, ?_, ?_⟩
  · intro α preprocess rand idx a h
    induction rand generalizing idx with
    | nil => exact ⟨idx, h⟩
    | cons r rs ih =>
      rw [getItemAcoustic] at h
      cases hp : preprocess idx with
      | none => rw [hp] at h; exact ih r h
      | some d => rw [hp] at h; exact ⟨idx, hp.trans h⟩
  · intro α preprocess rand idx d h
    cases rand with
    | nil => exact h
    | cons r rs => rw [getItemAcoustic, h]
  · intro α preprocess r rs idx h
    rw [getItemAcoustic, h]
  · refine ⟨fun j => if j = 0 then none else some j, [1], [2], 0, ?_⟩
    simp [getItemAcoustic]

/-- Witness for C10: with a preprocessor failing only at index 0, a
successful index 3 returns its own sample, and the failing index 0
with next draw 3 is redirected to index 3's sample. -/
theorem getItemAcoustic_spec_witness :
    (∃ j, (fun j : ℕ => if j = 0 then none else some j) j = some 3)
    ∧ getItemAcoustic (fun j : ℕ => if j = 0 then none else some j)
        [7] 3 = some 3
    ∧ getItemAcoustic (fun j : ℕ => if j = 0 then none else some j)
        [3] 0
      = getItemAcoustic (fun j : ℕ => if j = 0 then none else some j)
          [] 3 :=
  ⟨getItemAcoustic_spec.1 ℕ (fun j => if j = 0 then none else some j)
      [7] 3 3 (by simp [getItemAcoustic]),
   getItemAcoustic_spec.2.1 ℕ (fun j => if j = 0 then none else some j)
      [7] 3 3 (by simp),
   getItemAcoustic_spec.2.2.1 ℕ (fun j => if j = 0 then none else some j)
      3 [] 0 (by simp)⟩

/-! ### Discriminator ensemble shapes (spec §4.6) -/

/-- Output length of a 1-D convolution over `d` positions with the
given stride and same-style padding: `(d - 1) / stride + 1`. -/
def convOutDim (stride d : ℕ) : ℕ :=
  (d - 1) / stride + 1

/-- Frequency-axis strides of the five convolution layers of a
resolution discriminator (strides `1, 2, 2, 2, 1`). -/
def discriminatorStrides : List ℕ :=
  [1, 2, 2, 2, 1]

/-- Modelled from the spec: the per-layer spatial dimensions of one
resolution discriminator's feature maps (the discriminator source is
not in the snapshot; only its test is).  The input spectrogram has
`fft/2 + 1` frequency bins and each conv layer shrinks it by its
stride. -/
def discFmapDims (fft : ℕ) : List ℕ :=
  (discriminatorStrides.scanl (fun d s => convOutDim s d) (fft / 2 + 1)).tail

/-- Modelled from the spec: one resolution discriminator's output
shapes — the feature-map spatial dimensions and the final score shape
`[batch, remaining_length]` (the post-conv has stride 1). -/
def discriminatorROut (batch fft : ℕ) : List ℕ × (ℕ × ℕ) :=
  let dims := discFmapDims fft
  (dims, (batch, convOutDim 1 (dims.getLastD (fft / 2 + 1))))

/-- Modelled from the spec: the ensemble runs one resolution
discriminator per configured `(fft, hop, window)` triple and returns
the ordered list of `(feature_map_dims, score_shape)` pairs. -/
def multiResolutionDiscriminatorOut (batch : ℕ)
    (resolutions : List (ℕ × ℕ × ℕ)) : List (List ℕ × (ℕ × ℕ)) :=
  resolutions.map (fun r => discriminatorROut batch r.1)

/-- The three default `(fft, hop, window)` resolutions of the vocoder
config exercised by the discriminator test. -/
def vocoderResolutions : List (ℕ × ℕ × ℕ) :=
  [(1024, 120, 600), (2048, 240, 1200), (512, 50, 240)]

/-- C7: on a batch-1 input, the ensemble over the three configured
resolutions returns exactly one `(feature_maps, score)` pair per
resolution; the spatial dimension of the feature map at layer `i`
equals `max(2^(p_max - i) + 1, 2^p_min + 1)` for that discriminator's
powers `(p_max, p_min) ∈ [(9,6), (10,7), (8,5)]`, and the final score
shape is `[batch, 2^p_min + 1]`; explicitly the dimensions are those
asserted by the repository test. -/
theorem multi_resolution_discriminator_shapes :
    (multiResolutionDiscriminatorOut 1 vocoderResolutions).length
      = vocoderResolutions.length
    ∧ (multiResolutionDiscriminatorOut 1 vocoderResolutions).length = 3
    ∧ multiResolutionDiscriminatorOut 1 vocoderResolutions
        = [([513, 257, 129, 65, 65], (1, 65)),
           ([1025, 513, 257, 129, 129], (1, 129)),
           ([257, 129, 65, 33, 33], (1, 33))]
    ∧ multiResolutionDiscriminatorOut 1 vocoderResolutions
        = [((9, 6) : ℕ × ℕ), (10, 7), (8, 5)].map (fun pw =>
            ((List.range 5).map
              (fun i => max (2 ^ (pw.1 - i) + 1) (2 ^ pw.2 + 1)),
             (1, 2 ^ pw.2 + 1))) := by
  refine ⟨rfl, rfl, by decide, by decide⟩

/-! ### Attention-prior generator (spec §4.4) -/

/-- Beta-binomial probability mass at `k` for `n` trials with positive
integer shape parameters `a` and `b`, computed exactly over ℚ:
`C(n,k) * B(k+a, n-k+b) / B(a,b)` with
`B(p,q) = (p-1)! (q-1)! / (p+q-1)!`. -/
def betaBinomPMF (n a b k : ℕ) : ℚ :=
  (n.choose k : ℚ) *
    ((Nat.factorial (k + a - 1) * Nat.factorial (n - k + b - 1)
        * Nat.factorial (a + b - 1) : ℕ) : ℚ) /
    ((Nat.factorial (n + a + b - 1) * Nat.factorial (a - 1)
        * Nat.factorial (b - 1) : ℕ) : ℚ)

/-- Renormalize a row to sum to one. -/
def normalizeRow (row : List ℚ) : List ℚ :=
  row.map (fun x => x / row.sum)

/-- Modelled from the spec: `beta_binomial_prior_distribution`
(`training/preprocess/preprocess_libritts.py`, whose source is not in
the snapshot; only its test is).  Row `m` (for `m = 0 .. M-1`) is the
beta-binomial pmf over `P-1` trials with shape parameters
`a = m + 1`, `b = M - m` (success probability tracking `(m+1)/M`),
evaluated at phoneme indices `0 .. P-1` and renormalized so the row
sums to 1. -/
def beta_binomial_prior_distribution (phoneme_count mel_count : ℕ) :
    List (List ℚ) :=
  (List.range mel_count).map (fun m =>
    normalizeRow ((List.range phoneme_count).map
      (fun k => betaBinomPMF (phoneme_count - 1) (m + 1) (mel_count - m) k)))

lemma betaBinomPMF_pos (n a b k : ℕ) (hk : k ≤ n) :
    0 < betaBinomPMF n a b k := by
  unfold betaBinomPMF
  apply div_pos
  · apply mul_pos
    · exact_mod_cast Nat.choose_pos hk
    · have : 0 < Nat.factorial (k + a - 1) * Nat.factorial (n - k + b - 1)
          * Nat.factorial (a + b - 1) :=
        Nat.pos_of_ne_zero (by
          simp [Nat.mul_ne_zero, Nat.factorial_ne_zero])
      exact_mod_cast this
  · have : 0 < Nat.factorial (n + a + b - 1) * Nat.factorial (a - 1)
        * Nat.factorial (b - 1) :=
      Nat.pos_of_ne_zero (by
        simp [Nat.mul_ne_zero, Nat.factorial_ne_zero])
    exact_mod_cast this

lemma sum_map_div (l : List ℚ) (s : ℚ) :
    (l.map (fun x => x / s)).sum = l.sum / s := by
  induction l with
  | nil => simp
  | cons h t ih => simp [ih, add_div]

/-- C4: for `P, M >= 1` the attention-prior generator returns an
`[M, P]` matrix each of whose rows is a probability distribution:
entries are non-negative and every row sums to exactly 1. -/
theorem beta_binomial_prior_rows (P M : ℕ) (hP : 1 ≤ P) (_hM : 1 ≤ M) :
    (beta_binomial_prior_distribution P M).length = M
    ∧ ∀ row ∈ beta_binomial_prior_distribution P M,
        row.length = P ∧ (∀ x ∈ row, 0 ≤ x) ∧ row.sum = 1 := by
  constructor
  · rw [beta_binomial_prior_distribution, List.length_map, List.length_range]
  · intro row hrow
    rw [beta_binomial_prior_distribution, List.mem_map] at hrow
    obtain ⟨m, hm, rfl⟩ := hrow
    rw [List.mem_range] at hm
    set raw := (List.range P).map
      (fun k => betaBinomPMF (P - 1) (m + 1) (M - m) k) with hraw
    have hpos : ∀ x ∈ raw, 0 < x := by
      intro x hx
      rw [hraw, List.mem_map] at hx
      obtain ⟨k, hk, rfl⟩ := hx
      rw [List.mem_range] at hk
      exact betaBinomPMF_pos (P - 1) (m + 1) (M - m) k (by omega)
    have hne : raw ≠ [] := by
      have : raw.length = P := by rw [hraw, List.length_map, List.length_range]
      intro hnil
      rw [hnil] at this
      simp at this
      omega
    have hsum : 0 < raw.sum := List.sum_pos raw hpos hne
    refine ⟨?_, ?_, ?_⟩
    · rw [normalizeRow, List.length_map, hraw, List.length_map,
        List.length_range]
    · intro x hx
      rw [normalizeRow, List.mem_map] at hx
      obtain ⟨y, hy, rfl⟩ := hx
      exact div_nonneg (le_of_lt (hpos y hy)) (le_of_lt hsum)
    · rw [normalizeRow, sum_map_div]
      exact div_self (ne_of_gt hsum)

/-- Witness for C4 at `P = 2`, `M = 1`. -/
theorem beta_binomial_prior_rows_witness :
    (beta_binomial_prior_distribution 2 1).length = 1
    ∧ ∀ row ∈ beta_binomial_prior_distribution 2 1,
        row.length = 2 ∧ (∀ x ∈ row, 0 ≤ x) ∧ row.sum = 1 :=
  beta_binomial_prior_rows 2 1 (by norm_num) (by norm_num)

/-! ### Log-STFT-magnitude loss (spec §4.5) -/

/-- Modelled from the spec: `LogSTFTMagnitudeLoss`
(`model/univnet/log_stft_magnitude_loss.py`, whose source is not in
the snapshot; only its test is): the mean absolute difference of the
natural logarithms of the two magnitude inputs. -/
noncomputable def logSTFTMagnitudeLoss (x_mag y_mag : List ℝ) : ℝ :=
  (List.zipWith (fun x y => |Real.log y - Real.log x|) x_mag y_mag).sum
    / (x_mag.length : ℝ)

lemma logLoss_zip_self_sum (xs : List ℝ) :
    (List.zipWith (fun x y => |Real.log y - Real.log x|) xs xs).sum = 0 := by
  induction xs with
  | nil => simp
  | cons a t ih => simp [ih]

/-- C3: on `x_mag = [1,4,9,64]`, `y_mag = [1,8,16,256]` the
log-STFT-magnitude loss is within `1e-4` of `0.6637` (it equals
`(3 log 2 - 2 log (3/4)) / 4 ≈ 0.66370`), and on identical inputs it
is exactly 0. -/
theorem log_stft_magnitude_loss_value :
    |logSTFTMagnitudeLoss [1, 4, 9, 64] [1, 8, 16, 256] - 0.6637|
      ≤ 1 / 10000
    ∧ ∀ xs : List ℝ, logSTFTMagnitudeLoss xs xs = 0 := by
  constructor
  · have hL4 : Real.log (4 : ℝ) = 2 * Real.log 2 := by
      rw [show (4 : ℝ) = 2 ^ 2 by norm_num, Real.log_pow]
      push_cast
      ring
    have hL8 : Real.log (8 : ℝ) = 3 * Real.log 2 := by
      rw [show (8 : ℝ) = 2 ^ 3 by norm_num, Real.log_pow]
      push_cast
      ring
    have hL16 : Real.log (16 : ℝ) = 4 * Real.log 2 := by
      rw [show (16 : ℝ) = 2 ^ 4 by norm_num, Real.log_pow]
      push_cast
      ring
    have hL64 : Real.log (64 : ℝ) = 6 * Real.log 2 := by
      rw [show (64 : ℝ) = 2 ^ 6 by norm_num, Real.log_pow]
      push_cast
      ring
    have hL256 : Real.log (256 : ℝ) = 8 * Real.log 2 := by
      rw [show (256 : ℝ) = 2 ^ 8 by norm_num, Real.log_pow]
      push_cast
      ring
    have hL3 : Real.log (3 : ℝ) = Real.log (3 / 4) + 2 * Real.log 2 := by
      rw [Real.log_div (by norm_num) (by norm_num), hL4]
      ring
    have hL9 : Real.log (9 : ℝ)
        = 4 * Real.log 2 + 2 * Real.log (3 / 4) := by
      rw [show (9 : ℝ) = 3 ^ 2 by norm_num, Real.log_pow]
      push_cast
      rw [hL3]
      ring
    have h2pos : (0 : ℝ) < Real.log 2 := Real.log_pos (by norm_num)
    have h34neg : Real.log (3 / 4 : ℝ) < 0 :=
      Real.log_neg (by norm_num) (by norm_num)
    have hloss : logSTFTMagnitudeLoss [1, 4, 9, 64] [1, 8, 16, 256]
        = (3 * Real.log 2 - 2 * Real.log (3 / 4)) / 4 := by
      simp only [logSTFTMagnitudeLoss, List.zipWith_cons_cons,
        List.zipWith_nil_right, List.sum_cons, List.sum_nil,
        List.length_cons, List.length_nil]
      rw [Real.log_one, hL8, hL4, hL16, hL9, hL256, hL64]
      rw [show 3 * Real.log 2 - 2 * Real.log 2 = Real.log 2 by ring]
      rw [show 4 * Real.log 2 - (4 * Real.log 2 + 2 * Real.log (3 / 4))
        = -(2 * Real.log (3 / 4)) by ring]
      rw [show 8 * Real.log 2 - 6 * Real.log 2 = 2 * Real.log 2 by ring]
      rw [abs_of_pos h2pos, abs_neg,
        abs_of_neg (by linarith : 2 * Real.log (3 / 4) < 0),
        abs_of_pos (by linarith : (0 : ℝ) < 2 * Real.log 2),
        show |(0 : ℝ) - 0| = 0 by simp]
      push_cast
      ring
    have hseries := Real.abs_log_sub_add_sum_range_le
      (x := (1 / 4 : ℝ)) (by rw [abs_of_pos] <;> norm_num) 6
    have hsum : (∑ i ∈ Finset.range 6, ((1 : ℝ) / 4) ^ (i + 1) / (i + 1))
        = 35349 / 122880 := by
      norm_num [Finset.sum_range_succ]
    rw [hsum] at hseries
    rw [show (1 : ℝ) - 1 / 4 = 3 / 4 by norm_num] at hseries
    rw [show |(1 / 4 : ℝ)| ^ (6 + 1) / (1 - |(1 / 4 : ℝ)|) = 1 / 12288 by
      rw [abs_of_pos (by norm_num : (0 : ℝ) < 1 / 4)]
      norm_num] at hseries
    have hb := abs_le.mp hseries
    rw [hloss, abs_le]
    constructor
    · nlinarith [Real.log_two_gt_d9, hb.2]
    · nlinarith [Real.log_two_lt_d9, hb.1]
  · intro xs
    unfold logSTFTMagnitudeLoss
    rw [logLoss_zip_self_sum]
    exact zero_div _

end TTS
